import Mathlib

/-!
Verification of the static source scanner `Tools/ci/static_scan.py`.

The scanner's core is translated into Lean over `List Char` texts:
Python strings become `List Char`, `str.count` / `str.find` / `str.splitlines`
become the executable functions below, and each compiled regular expression
becomes a value of the small regex language `RE` together with a backtracking
matcher whose candidate order reproduces Python's leftmost, first-alternative,
greedy-with-backtracking semantics.  Character classes model the ASCII
behaviour of Python's `\w` and `\s`.
-/

namespace StaticScan

/-- ASCII model of Python's regex word class `\w`. -/
def isWordChar (c : Char) : Bool := c.isAlphanum || c = '_'

/-- ASCII model of Python's regex whitespace class `\s`. -/
def isSpaceChar (c : Char) : Bool :=
  c = ' ' || c = '\t' || c = '\n' || c = '\r' || c = '\x0b' || c = '\x0c'

/-- Does `cs` start with `sub`? (model of Python `str.startswith`, used by `countSub`). -/
def beginsWith : List Char → List Char → Bool
  | _, [] => true
  | [], _ :: _ => false
  | c :: cs, d :: ds => c = d && beginsWith cs ds

/-- Python `text.count(sub)`: number of non-overlapping occurrences of `sub`
in `cs`, scanning left to right.  (`text.count(sub, 0, k)` is
`countSub (cs.take k) sub`.)  Returns 0 for an empty `sub`. -/
def countSubAux (sub : List Char) : List Char → Nat → Nat
  | [], _ => 0
  | c :: rest, skip =>
    match skip with
    | Nat.succ k => countSubAux sub rest k
    | 0 =>
      if beginsWith (c :: rest) sub then countSubAux sub rest (sub.length - 1) + 1
      else countSubAux sub rest 0

/-- Python `text.count(sub)`: non-overlapping occurrences, left to right. -/
def countSub (cs sub : List Char) : Nat :=
  match sub with
  | [] => 0
  | _ :: _ => countSubAux sub cs 0

/-- The line-boundary characters of Python `str.splitlines`
(besides the combined boundary "\r\n"). -/
def isLineBreak (c : Char) : Bool :=
  c = '\n' || c = '\r' || c = '\x0b' || c = '\x0c' ||
  c = '\x1c' || c = '\x1d' || c = '\x1e' || c = '\x85' ||
  c = '\u2028' || c = '\u2029'

/-- Worker for `splitlines`; `acc` holds the current line reversed, and the
Bool records whether the previous character was a `\r` (so an immediately
following `\n` belongs to the same boundary). -/
def slGo : Bool → List Char → List Char → List (List Char)
  | _, acc, [] => if acc.isEmpty then [] else [acc.reverse]
  | prevCR, acc, c :: rest =>
    if prevCR && (c == '\n') then slGo false acc rest
    else if c = '\r' then acc.reverse :: slGo true [] rest
    else if isLineBreak c then acc.reverse :: slGo false [] rest
    else slGo false (c :: acc) rest

/-- Python `str.splitlines()`. -/
def splitlines (cs : List Char) : List (List Char) := slGo false [] cs

/-- Worker for `findFrom` (fuel-driven scan). -/
def findFromGo (cs : List Char) (c : Char) : Nat → Nat → Option Nat
  | _, 0 => none
  | i, fuel + 1 =>
    match cs.get? i with
    | none => none
    | some d => if d = c then some i else findFromGo cs c (i + 1) fuel

/-- Python `text.find(ch, pos)`: index of the first occurrence of `ch` at or
after `pos`, `none` when absent (Python returns -1 there). -/
def findFrom (cs : List Char) (c : Char) (pos : Nat) : Option Nat :=
  findFromGo cs c pos (cs.length + 1 - pos)

/-! ## The regex language

Every pattern in `static_scan.py` is built from literals, single-character
classes, greedy class quantifiers `*`/`+`, ordered alternation, optional
groups, the word boundary `\b` and the MULTILINE anchor `^`. -/

inductive RE where
  | fail : RE
  | eps : RE
  | lit : List Char → RE
  | cls : (Char → Bool) → RE
  | starC : (Char → Bool) → RE
  | plusC : (Char → Bool) → RE
  | seq : RE → RE → RE
  | alt : RE → RE → RE
  | opt : RE → RE
  | wordB : RE
  | bol : RE

/-- Is the character just before position `i` a word character? -/
def wordBefore (cs : List Char) : Nat → Bool
  | 0 => false
  | Nat.succ j =>
    match cs.get? j with
    | some c => isWordChar c
    | none => false

/-- Is the character at position `i` a word character? -/
def wordAt (cs : List Char) (i : Nat) : Bool :=
  match cs.get? i with
  | some c => isWordChar c
  | none => false

/-- MULTILINE `^`: position 0 or a position right after a newline. -/
def atLineStart (cs : List Char) : Nat → Bool
  | 0 => true
  | Nat.succ j => cs.get? j == some '\n'

/-- Match a literal starting at position `i`; returns the end position. -/
def litMatch (cs : List Char) : Nat → List Char → Option Nat
  | i, [] => some i
  | i, c :: r =>
    match cs.get? i with
    | some d => if d = c then litMatch cs (i + 1) r else none
    | none => none

/-- Length of the maximal run of characters satisfying `p`. -/
def maxRun (p : Char → Bool) : List Char → Nat
  | [] => 0
  | c :: r => if p c then maxRun p r + 1 else 0

/-- All end positions of a match of `r` starting at position `i`, in Python's
backtracking preference order (first alternative first, greedy quantifiers
longest first).  The head of the list is the end Python's engine reports. -/
def ends : RE → List Char → Nat → List Nat
  | .fail, _, _ => []
  | .eps, _, i => [i]
  | .lit s, cs, i =>
    match litMatch cs i s with
    | some j => [j]
    | none => []
  | .cls p, cs, i =>
    match cs.get? i with
    | some c => if p c then [i + 1] else []
    | none => []
  | .starC p, cs, i =>
    let k := maxRun p (cs.drop i)
    (List.range (k + 1)).reverse.map (fun t => i + t)
  | .plusC p, cs, i =>
    let k := maxRun p (cs.drop i)
    (List.range k).reverse.map (fun t => i + t + 1)
  | .seq a b, cs, i => (ends a cs i).flatMap (fun j => ends b cs j)
  | .alt a b, cs, i => ends a cs i ++ ends b cs i
  | .opt a, cs, i => ends a cs i ++ [i]
  | .wordB, cs, i => if wordBefore cs i != wordAt cs i then [i] else []
  | .bol, cs, i => if atLineStart cs i then [i] else []

/-- Worker for `searchFrom` (fuel-driven scan over candidate start positions). -/
def searchFromGo (r : RE) (cs : List Char) : Nat → Nat → Option (Nat × Nat)
  | _, 0 => none
  | i, fuel + 1 =>
    match (ends r cs i).head? with
    | some j => some (i, j)
    | none => searchFromGo r cs (i + 1) fuel

/-- Leftmost match of `r` in `cs` starting at or after `pos`:
Python `pattern.search(text, pos)`, as a `(start, end)` pair. -/
def searchFrom (r : RE) (cs : List Char) (pos : Nat) : Option (Nat × Nat) :=
  searchFromGo r cs pos (cs.length + 1 - pos)

/-- Python `pattern.search(text)`. -/
def reSearch (r : RE) (cs : List Char) : Option (Nat × Nat) :=
  searchFrom r cs 0

/-- Worker for `finditer` (fuel bounds the number of matches). -/
def finditerGo (r : RE) (cs : List Char) : Nat → Nat → List (Nat × Nat)
  | _, 0 => []
  | pos, fuel + 1 =>
    match searchFrom r cs pos with
    | none => []
    | some (i, j) => (i, j) :: finditerGo r cs (if i < j then j else i + 1) fuel

/-- Python `pattern.finditer(text)`: the non-overlapping matches, left to
right, as `(start, end)` pairs. -/
def finditer (r : RE) (cs : List Char) : List (Nat × Nat) :=
  finditerGo r cs 0 (cs.length + 1)

/-- Ordered alternation of literal strings, Python `(a|b|c)`. -/
def altLits : List String → RE
  | [] => .fail
  | [s] => .lit s.data
  | s :: rest => .alt (.lit s.data) (altLits rest)

/-! ## The compiled patterns of `static_scan.py` (the `PATTERNS` table) -/

/-- `PATTERNS["expensive_call_in_update"]`. -/
def expensiveRE : RE :=
  .seq .wordB (.seq
    (altLits ["GetComponent", "FindObjectOfType", "FindObjectsOfType",
      "GameObject.Find", "Resources.Load", "Instantiate", "Destroy"])
    .wordB)

/-- `PATTERNS["linq_in_update"]`. -/
def linqRE : RE :=
  .seq .wordB (.seq
    (altLits ["Select", "Where", "OrderBy", "OrderByDescending", "ToList",
      "GroupBy", "Distinct", "Join"])
    (.seq (.starC isSpaceChar) (.lit ['('])))

/-- `PATTERNS["debug_in_update"]`. -/
def debugRE : RE :=
  .seq .wordB (.seq (.lit "Debug.".data)
    (.seq (altLits ["Log", "LogWarning", "LogError"])
      (.seq (.starC isSpaceChar) (.lit ['(']))))

/-- `PATTERNS["empty_catch"]`. -/
def emptyCatchRE : RE :=
  .seq (.lit "catch".data)
    (.seq (.starC isSpaceChar)
      (.seq (.lit ['('])
        (.seq (.starC (fun c => c ≠ ')'))
          (.seq (.lit [')'])
            (.seq (.starC isSpaceChar)
              (.seq (.lit ['\x7b'])
                (.seq
                  (.alt
                    (.seq (.starC isSpaceChar)
                      (.seq (.lit ['/', '/'])
                        (.seq (.starC (fun c => c ≠ '\n')) (.lit ['\n']))))
                    (.starC isSpaceChar))
                  (.lit ['\x7d']))))))))

/-- `PATTERNS["using_unityeditor"]` (MULTILINE). -/
def usingRE : RE :=
  .seq .bol (.seq (.starC isSpaceChar)
    (.seq (.lit "using".data)
      (.seq (.plusC isSpaceChar)
        (.seq (.lit "UnityEditor".data)
          (.seq (.starC isSpaceChar) (.lit [';']))))))

/-- `PATTERNS["start_coroutine"]`. -/
def startCoroutineRE : RE :=
  .seq .wordB (.seq (.lit "StartCoroutine".data)
    (.seq (.starC isSpaceChar) (.lit ['('])))

/-- `PATTERNS["subscribe_event"]`. -/
def subscribeRE : RE := .lit ['+', '=']

/-- `PATTERNS["unsubscribe_event"]`. -/
def unsubscribeRE : RE := .lit ['-', '=']

/-- `PATTERNS["async_void"]`. -/
def asyncVoidRE : RE :=
  .seq .wordB (.seq (.lit "async".data)
    (.seq (.plusC isSpaceChar)
      (.seq (.lit "void".data)
        (.seq (.plusC isSpaceChar)
          (.seq (.plusC isWordChar)
            (.seq (.starC isSpaceChar) (.lit ['('])))))))

/-- `PATTERNS["fixedupdate_physics_calls"]`. -/
def physicsRE : RE :=
  .seq .wordB (.seq
    (altLits ["AddForce", "MovePosition", "MoveRotation", "velocity"])
    .wordB)

/-! ## `METHOD_START_RE` and `find_method_ranges` -/

/-- The part of `METHOD_START_RE` before the capturing name group:
optional access modifier, optional `async`/`override`/`static`, then
`void` and at least one space. -/
def methodSigRE : RE :=
  .seq .wordB
    (.seq (.opt (altLits ["public", "private", "protected", "internal"]))
      (.seq (.starC isSpaceChar)
        (.seq (.opt (.seq (.lit "async".data) (.plusC isSpaceChar)))
          (.seq (.opt (.seq (.lit "override".data) (.plusC isSpaceChar)))
            (.seq (.opt (.seq (.lit "static".data) (.plusC isSpaceChar)))
              (.seq (.lit "void".data) (.plusC isSpaceChar)))))))

/-- The fixed method-name set captured by `METHOD_START_RE`. -/
def methodNames : List String := ["Update", "FixedUpdate", "LateUpdate"]

/-- The part of `METHOD_START_RE` after the name group: spaces and `(`. -/
def methodTailRE : RE := .seq (.starC isSpaceChar) (.lit ['('])

/-- Candidate `(captured name, match end)` pairs for a `METHOD_START_RE`
match starting at position `i`, in backtracking preference order. -/
def methodMatchEnds (cs : List Char) (i : Nat) : List (String × Nat) :=
  (ends methodSigRE cs i).flatMap (fun j =>
    methodNames.flatMap (fun nm =>
      match litMatch cs j nm.data with
      | none => []
      | some k => (ends methodTailRE cs k).map (fun e => (nm, e))))

/-- Leftmost `METHOD_START_RE` match at or after position `i` (fuel-driven). -/
def methodSearchGo (cs : List Char) : Nat → Nat → Option (Nat × String × Nat)
  | _, 0 => none
  | i, fuel + 1 =>
    match (methodMatchEnds cs i).head? with
    | some (nm, j) => some (i, nm, j)
    | none => methodSearchGo cs (i + 1) fuel

/-- Worker for `methodMatches`. -/
def methodFinditerGo (cs : List Char) : Nat → Nat → List (String × Nat × Nat)
  | _, 0 => []
  | pos, fuel + 1 =>
    match methodSearchGo cs pos (cs.length + 1 - pos) with
    | none => []
    | some (i, nm, j) =>
      (nm, i, j) :: methodFinditerGo cs (if i < j then j else i + 1) fuel

/-- `METHOD_START_RE.finditer(text)`: the `(group 1, start, end)` triples of
the non-overlapping declaration matches, in text order. -/
def methodMatches (cs : List Char) : List (String × Nat × Nat) :=
  methodFinditerGo cs 0 (cs.length + 1)

/-- The brace-depth walk of `find_method_ranges`: from absolute index `i`
(the list argument is the corresponding suffix of the text), increment on
`{`, decrement on `}`, and answer the index of the first `}` that returns
the depth to zero. -/
def braceGo : List Char → Nat → Int → Option Nat
  | [], _, _ => none
  | c :: rest, i, depth =>
    if c = '\x7b' then braceGo rest (i + 1) (depth + 1)
    else if c = '\x7d' then
      (if depth - 1 = 0 then some i else braceGo rest (i + 1) (depth - 1))
    else braceGo rest (i + 1) depth

/-- The brace walk started at absolute position `b` of the text. -/
def braceScan (cs : List Char) (b : Nat) : Option Nat :=
  braceGo (cs.drop b) b 0

/-- The per-match body of the `find_method_ranges` loop: find the first `{`
after the signature, walk to the matching `}`, and map both offsets to
1-based line numbers by counting `"\n"` characters before them. -/
def processMatch (cs : List Char) (mEnd : Nat) : Option (Nat × Nat) :=
  match findFrom cs '\x7b' mEnd with
  | none => none
  | some b =>
    match braceScan cs b with
    | none => none
    | some e =>
      some (countSub (cs.take b) ['\n'] + 1, countSub (cs.take e) ['\n'] + 1)

/-- Append a range to the entry of `nm` in the accumulated mapping. -/
def addRange (rs : List (String × List (Nat × Nat))) (nm : String)
    (r : Nat × Nat) : List (String × List (Nat × Nat)) :=
  rs.map (fun p => if p.1 = nm then (p.1, p.2 ++ [r]) else p)

/-- The initial `ranges` dictionary of `find_method_ranges`. -/
def initRanges : List (String × List (Nat × Nat)) :=
  [("Update", []), ("FixedUpdate", []), ("LateUpdate", [])]

/-- One iteration of the `find_method_ranges` loop. -/
def rangeStep (cs : List Char) (acc : List (String × List (Nat × Nat)))
    (m : String × Nat × Nat) : List (String × List (Nat × Nat)) :=
  match processMatch cs m.2.2 with
  | none => acc
  | some r => addRange acc m.1 r

/-- `find_method_ranges(text)`: the mapping from method name to the list of
`(start_line, end_line)` body ranges, in insertion order of the keys. -/
def find_method_ranges (cs : List Char) : List (String × List (Nat × Nat)) :=
  (methodMatches cs).foldl (rangeStep cs) initRanges

/-- The sequence of ranges recorded for method name `nm`. -/
def rangesOf (cs : List Char) (nm : String) : List (Nat × Nat) :=
  ((find_method_ranges cs).lookup nm).getD []

/-! ## The rule engine (the per-file part of `main`) -/

/-- One report row. -/
structure Finding where
  file : String
  line : Nat
  severity : String
  rule : String
  detail : String
deriving DecidableEq, Repr

/-- The two-character sequence written `"\\n"` in the Python source:
a backslash followed by the letter `n`. -/
def escNl : List Char := ['\\', 'n']

/-- Python `sub in text`, via a literal-regex search. -/
def hasSub (cs : List Char) (sub : String) : Bool :=
  (reSearch (.lit sub.data) cs).isSome

/-- Python `str.lower()`, character by character (ASCII model). -/
def strLower (s : String) : String := ⟨s.data.map Char.toLower⟩

/-- Python `sep.join(parts)`. -/
def joinSep (sep : List Char) : List (List Char) → List Char
  | [] => []
  | [x] => x
  | x :: y :: rest => x ++ sep ++ joinSep sep (y :: rest)

/-- The body text a method range is scanned against:
`"\\n".join(lines[s-1:e])` — the full lines `s` through `e` (1-based,
inclusive), joined by the literal two-character sequence `\n`. -/
def bodyText (lines : List (List Char)) (s e : Nat) : List Char :=
  joinSep escNl ((lines.drop (s - 1)).take (e - (s - 1)))

/-- The findings emitted for one method range `(s, e)` of method `nm`:
the four body-scope rules, in source order. -/
def rangeFindings (file : String) (lines : List (List Char)) (nm : String)
    (s e : Nat) : List Finding :=
  let body := bodyText lines s e
  (if (reSearch expensiveRE body).isSome then
    [⟨file, s, "warn", strLower nm ++ "-expensive-call",
      "Potentially expensive call inside " ++ nm ++ "()."⟩]
   else []) ++
  (if (reSearch linqRE body).isSome then
    [⟨file, s, "info", strLower nm ++ "-linq-allocation",
      "LINQ usage inside " ++ nm ++ "() can allocate per-frame."⟩]
   else []) ++
  (if (reSearch debugRE body).isSome then
    [⟨file, s, "info", strLower nm ++ "-debuglog",
      "Debug logging inside " ++ nm ++ "() can be noisy."⟩]
   else []) ++
  (if nm = "FixedUpdate" && (reSearch physicsRE body).isSome then
    [⟨file, s, "ok", "fixedupdate-physics",
      "Physics calls in FixedUpdate (generally correct)."⟩]
   else [])

/-- Lines 64-72 of the source: the single `using_unityeditor` search. -/
def usingFindings (file : String) (cs : List Char) : List Finding :=
  match reSearch usingRE cs with
  | some m =>
    [⟨file, countSub (cs.take m.1) escNl + 1, "warn",
      "using-UnityEditor-in-runtime",
      "File imports UnityEditor; wrap editor-only code or move to Editor/."⟩]
  | none => []

/-- Lines 73-80 of the source: one finding per `empty_catch` match. -/
def emptyCatchFindings (file : String) (cs : List Char) : List Finding :=
  (finditer emptyCatchRE cs).map (fun m =>
    (⟨file, countSub (cs.take m.1) escNl + 1, "warn", "empty-catch-block",
      "Empty catch block swallows exceptions."⟩ : Finding))

/-- Lines 81-88 of the source: one finding per `async_void` match. -/
def asyncVoidFindings (file : String) (cs : List Char) : List Finding :=
  (finditer asyncVoidRE cs).map (fun m =>
    (⟨file, countSub (cs.take m.1) escNl + 1, "warn", "async-void",
      "Avoid async void (except event handlers); prefer async Task."⟩ : Finding))

/-- Lines 89-96 of the source: the `+=`-without-`-=` absence rule. -/
def eventFindings (file : String) (cs : List Char) : List Finding :=
  if (reSearch subscribeRE cs).isSome && !(reSearch unsubscribeRE cs).isSome then
    [⟨file, 1, "info", "event-unsubscribe-missing",
      "Subscriptions detected but no obvious unsubscription; ensure to unsubscribe in OnDisable/OnDestroy."⟩]
  else []

/-- Lines 97-105 of the source: the `StartCoroutine`-without-stop rule. -/
def coroutineFindings (file : String) (cs : List Char) : List Finding :=
  if (reSearch startCoroutineRE cs).isSome && !(hasSub cs "OnDisable") &&
      !(hasSub cs "OnDestroy") && !(hasSub cs "StopCoroutine") then
    [⟨file, 1, "info", "coroutine-stop-missing",
      "StartCoroutine used without a stop path."⟩]
  else []

/-- The five file-scope rule blocks, in source order. -/
def fileScopeFindings (file : String) (cs : List Char) : List Finding :=
  usingFindings file cs ++ emptyCatchFindings file cs ++
  asyncVoidFindings file cs ++ eventFindings file cs ++ coroutineFindings file cs

/-- Lines 107-141 of the source: for each method-name group (in dictionary
insertion order) and each of its ranges, the body-scope rule block. -/
def bodyScopeFindings (file : String) (cs : List Char) : List Finding :=
  (find_method_ranges cs).flatMap (fun g =>
    g.2.flatMap (fun r => rangeFindings file (splitlines cs) g.1 r.1 r.2))

/-- The findings `main` appends for one file, in source order: the five
file-scope rules, then for each method-name group and each of its ranges
the body-scope rules. -/
def scanFile (file : String) (cs : List Char) : List Finding :=
  fileScopeFindings file cs ++ bodyScopeFindings file cs

/-- Position of a finding's rule in the fixed file-scope rule table
(editor-namespace import, empty catch, async void, event-unsubscribe-missing,
coroutine-stop-missing). -/
def fileRuleIdx (f : Finding) : Nat :=
  if f.rule = "using-UnityEditor-in-runtime" then 0
  else if f.rule = "empty-catch-block" then 1
  else if f.rule = "async-void" then 2
  else if f.rule = "event-unsubscribe-missing" then 3
  else 4

/-- Position of a finding's rule in the fixed body-scope rule table
(expensive call, linq allocation, debug log, fixedupdate physics). -/
def bodyRuleIdx (f : Finding) : Nat :=
  if f.rule = "update-expensive-call" ∨ f.rule = "fixedupdate-expensive-call"
      ∨ f.rule = "lateupdate-expensive-call" then 0
  else if f.rule = "update-linq-allocation"
      ∨ f.rule = "fixedupdate-linq-allocation"
      ∨ f.rule = "lateupdate-linq-allocation" then 1
  else if f.rule = "update-debuglog" ∨ f.rule = "fixedupdate-debuglog"
      ∨ f.rule = "lateupdate-debuglog" then 2
  else 3

/-! ## Helper lemmas -/

theorem braceGo_ge {l : List Char} {i : Nat} {d : Int} {j : Nat}
    (h : braceGo l i d = some j) : i ≤ j := by
  induction l generalizing i d with
  | nil => simp [braceGo] at h
  | cons c rest ih =>
    unfold braceGo at h
    split at h
    · exact Nat.le_of_succ_le (ih h)
    · split at h
      · split at h
        · cases h; exact Nat.le_refl _
        · exact Nat.le_of_succ_le (ih h)
      · exact Nat.le_of_succ_le (ih h)

theorem braceGo_lt {l : List Char} {i : Nat} {d : Int} {j : Nat}
    (h : braceGo l i d = some j) : j < i + l.length := by
  induction l generalizing i d with
  | nil => simp [braceGo] at h
  | cons c rest ih =>
    unfold braceGo at h
    simp only [List.length_cons]
    split at h
    · have := ih h; omega
    · split at h
      · split at h
        · cases h; omega
        · have := ih h; omega
      · have := ih h; omega

theorem braceScan_ge {cs : List Char} {b e : Nat}
    (h : braceScan cs b = some e) : b ≤ e :=
  braceGo_ge h

theorem braceScan_lt_length {cs : List Char} {b e : Nat}
    (h : braceScan cs b = some e) : e < cs.length := by
  have h1 := braceGo_lt h
  have h2 : (cs.drop b).length = cs.length - b := cs.length_drop b
  rw [h2] at h1
  rcases Nat.lt_or_ge b cs.length with hb | hb
  · omega
  · unfold braceScan at h
    rw [List.drop_eq_nil_of_le hb] at h
    simp [braceGo] at h

theorem findFromGo_spec {cs : List Char} {c : Char} {i fuel b : Nat}
    (h : findFromGo cs c i fuel = some b) :
    i ≤ b ∧ cs.get? b = some c := by
  induction fuel generalizing i with
  | zero => simp [findFromGo] at h
  | succ fuel ih =>
    unfold findFromGo at h
    split at h
    · exact absurd h (by simp)
    · rename_i d hd
      split at h
      · cases h
        rename_i he
        exact ⟨Nat.le_refl _, by rw [hd, he]⟩
      · have := ih h
        exact ⟨Nat.le_of_succ_le this.1, this.2⟩

theorem findFrom_spec {cs : List Char} {c : Char} {pos b : Nat}
    (h : findFrom cs c pos = some b) :
    pos ≤ b ∧ b < cs.length ∧ cs.get? b = some c := by
  have h1 := findFromGo_spec h
  exact ⟨h1.1, List.get?_eq_some.mp h1.2 |>.choose, h1.2⟩

theorem count_take_mono {cs : List Char} {a b : Nat} (hab : a ≤ b) (ch : Char) :
    (cs.take a).count ch ≤ (cs.take b).count ch := by
  have hsub : List.Sublist (cs.take a) (cs.take b) := by
    have : cs.take a = (cs.take b).take a := by
      rw [List.take_take, Nat.min_eq_left hab]
    rw [this]
    exact List.take_sublist _ _
  exact hsub.count_le ch

theorem beginsWith_length {l sub : List Char} (h : beginsWith l sub = true) :
    sub.length ≤ l.length := by
  induction sub generalizing l with
  | nil => simp
  | cons s ss ih =>
    cases l with
    | nil => simp [beginsWith] at h
    | cons c cs =>
      simp only [beginsWith, Bool.and_eq_true, decide_eq_true_eq] at h
      simpa [Nat.succ_le_succ_iff] using ih h.2

theorem countSubAux_skip (sub : List Char) :
    ∀ (rest : List Char) (skip : Nat),
      countSubAux sub rest skip = countSubAux sub (rest.drop skip) 0 := by
  intro rest
  induction rest with
  | nil => intro skip; simp [countSubAux]
  | cons c rest ih =>
    intro skip
    cases skip with
    | zero => rfl
    | succ k =>
      show countSubAux sub rest k = _
      rw [ih k]
      rfl

theorem countSub_cons (c : Char) (rest : List Char) (s : Char)
    (ss : List Char) :
    countSub (c :: rest) (s :: ss) =
      if beginsWith (c :: rest) (s :: ss) then
        countSub (rest.drop ss.length) (s :: ss) + 1
      else countSub rest (s :: ss) := by
  show countSubAux (s :: ss) (c :: rest) 0 = _
  have h1 : countSubAux (s :: ss) (c :: rest) 0 =
      if beginsWith (c :: rest) (s :: ss) then
        countSubAux (s :: ss) rest ((s :: ss).length - 1) + 1
      else countSubAux (s :: ss) rest 0 := rfl
  rw [h1, countSubAux_skip]
  have h2 : (s :: ss).length - 1 = ss.length := by simp
  rw [h2]
  rfl

theorem countSub_nil_left (sub : List Char) : countSub [] sub = 0 := by
  cases sub <;> rfl

theorem countSub_singleton (cs : List Char) (c : Char) :
    countSub cs [c] = cs.count c := by
  induction cs with
  | nil => simp [countSub_nil_left]
  | cons d rest ih =>
    rw [countSub_cons]
    simp only [beginsWith, List.count_cons, List.drop_zero]
    by_cases hdc : d = c
    · simp [hdc, ih]
    · simp [hdc, Ne.symm hdc, ih, beginsWith]

theorem beginsWith_of_take {l sub : List Char} {n : Nat}
    (h : beginsWith (l.take n) sub = true) : beginsWith l sub = true := by
  induction sub generalizing l n with
  | nil => simp [beginsWith]
  | cons s ss ih =>
    cases l with
    | nil => simp [beginsWith] at h
    | cons c cs =>
      cases n with
      | zero => simp [beginsWith] at h
      | succ n =>
        simp only [List.take_succ_cons, beginsWith, Bool.and_eq_true] at h ⊢
        exact ⟨h.1, ih h.2⟩

theorem beginsWith_take_of_le {l sub : List Char} {n : Nat}
    (h : sub.length ≤ n) : beginsWith (l.take n) sub = beginsWith l sub := by
  induction sub generalizing l n with
  | nil => simp [beginsWith]
  | cons s ss ih =>
    cases l with
    | nil => simp
    | cons c cs =>
      cases n with
      | zero => simp at h
      | succ n =>
        simp only [List.take_succ_cons, beginsWith]
        rw [ih (by simpa [Nat.succ_le_succ_iff] using h)]

theorem countSub_of_len_lt {l sub : List Char} (h : l.length < sub.length) :
    countSub l sub = 0 := by
  induction l with
  | nil => simp [countSub_nil_left]
  | cons c cs ih =>
    cases sub with
    | nil => simp at h
    | cons s ss =>
      rw [countSub_cons]
      split
      · rename_i hb
        have := beginsWith_length hb
        simp only [List.length_cons] at h this
        omega
      · exact ih (by simp at h ⊢; omega)

theorem countSub_take_le (sub : List Char) :
    ∀ (N cs : List Char) (n : Nat), cs.length ≤ N.length →
      countSub (cs.take n) sub ≤ countSub cs sub := by
  intro N
  induction N with
  | nil =>
    intro cs n hlen
    have : cs = [] := List.eq_nil_of_length_eq_zero (Nat.le_zero.mp (by simpa using hlen))
    subst this; simp
  | cons _ Nt ih =>
    intro cs n hlen
    cases cs with
    | nil => simp
    | cons c rest =>
      cases sub with
      | nil => simp [countSub]
      | cons s ss =>
        cases n with
        | zero => simp [countSub_nil_left]
        | succ n =>
          simp only [List.take_succ_cons]
          rcases Nat.lt_or_ge (n + 1) (s :: ss).length with hlt | hge
          · have hlen2 : (c :: rest.take n).length < (s :: ss).length := by
              simp only [List.length_cons, List.length_take]
              simp only [List.length_cons] at hlt
              omega
            rw [countSub_of_len_lt hlen2]
            exact Nat.zero_le _
          · have heq : beginsWith (c :: rest.take n) (s :: ss) =
                beginsWith (c :: rest) (s :: ss) := by
              have h1 : (c :: rest).take (n + 1) = c :: rest.take n := by
                simp [List.take_succ_cons]
              rw [← h1]
              exact beginsWith_take_of_le hge
            rw [countSub_cons, countSub_cons, heq]
            by_cases hc : beginsWith (c :: rest) (s :: ss) = true
            · rw [if_pos hc, if_pos hc]
              simp only [List.drop_take]
              have hr : (rest.drop ss.length).length ≤ Nt.length := by
                simp only [List.length_cons] at hlen
                simp only [List.length_drop]
                omega
              exact Nat.succ_le_succ (ih (rest.drop ss.length) (n - ss.length) hr)
            · rw [if_neg hc, if_neg hc]
              have hr : rest.length ≤ Nt.length := by
                simp only [List.length_cons] at hlen; omega
              exact ih rest n hr

theorem countSub_take_eq_zero {cs sub : List Char} {n : Nat}
    (h : countSub cs sub = 0) : countSub (cs.take n) sub = 0 :=
  Nat.le_zero.mp (h ▸ countSub_take_le sub cs cs n (Nat.le_refl _))

theorem slGo_nil (p : Bool) (acc : List Char) :
    slGo p acc [] = if acc.isEmpty then [] else [acc.reverse] := rfl

theorem slGo_false_cons (acc : List Char) (c : Char) (rest : List Char) :
    slGo false acc (c :: rest) =
      if c = '\r' then acc.reverse :: slGo true [] rest
      else if isLineBreak c then acc.reverse :: slGo false [] rest
      else slGo false (c :: acc) rest := by
  simp [slGo]

theorem slGo_true_nl (acc : List Char) (rest : List Char) :
    slGo true acc ('\n' :: rest) = slGo false acc rest := by
  simp [slGo]

theorem slGo_true_of_ne {c : Char} (h : c ≠ '\n') (acc rest : List Char) :
    slGo true acc (c :: rest) = slGo false acc (c :: rest) := by
  have hb : (c == '\n') = false := beq_false_of_ne h
  simp [slGo, hb]

theorem slGo_pos :
    ∀ (cs : List Char) (p : Bool) (acc : List Char), acc ≠ [] →
      1 ≤ (slGo p acc cs).length := by
  intro cs
  induction cs with
  | nil =>
    intro p acc h
    rw [slGo_nil, if_neg (by simpa using h)]
    simp
  | cons c rest ih =>
    intro p acc h
    have hfalse : 1 ≤ (slGo false acc (c :: rest)).length := by
      rw [slGo_false_cons]
      by_cases h1 : c = '\r'
      · rw [if_pos h1]; simp
      · rw [if_neg h1]
        by_cases h2 : isLineBreak c
        · rw [if_pos h2]; simp
        · rw [if_neg h2]; exact ih false (c :: acc) (by simp)
    cases p with
    | false => exact hfalse
    | true =>
      by_cases hc : c = '\n'
      · subst hc
        rw [slGo_true_nl]
        exact ih false acc h
      · rw [slGo_true_of_ne hc]
        exact hfalse

theorem slGo_count :
    ∀ (N : Nat) (cs : List Char), cs.length ≤ N →
      ∀ (acc : List Char) (b : Nat), b < cs.length →
        (cs.take b).count '\n' < (slGo false acc cs).length := by
  intro N
  induction N with
  | zero =>
    intro cs hlen acc b hb
    have : cs = [] := List.eq_nil_of_length_eq_zero (Nat.le_zero.mp hlen)
    subst this
    simp at hb
  | succ N ih =>
    intro cs hlen acc b hb
    cases cs with
    | nil => simp at hb
    | cons c rest =>
      by_cases hcr : c = '\r'
      · subst hcr
        rw [slGo_false_cons, if_pos rfl]
        cases rest with
        | nil =>
          cases b with
          | zero => simp
          | succ b => simp at hb
        | cons c2 rest2 =>
          by_cases h2 : c2 = '\n'
          · subst h2
            rw [slGo_true_nl]
            cases b with
            | zero => simp
            | succ b =>
              cases b with
              | zero =>
                simp [List.count_cons]
              | succ b =>
                simp only [List.take_succ_cons, List.count_cons,
                  List.length_cons]
                have hblt : b < rest2.length := by
                  simp only [List.length_cons] at hb; omega
                have hlen2 : rest2.length ≤ N := by
                  simp only [List.length_cons] at hlen; omega
                have hrec := ih rest2 hlen2 [] b hblt
                have hr : (('\r' : Char) == '\n') = false := by decide
                have hn : (('\n' : Char) == '\n') = true := by decide
                simp [hr, hn]
                omega
          · rw [slGo_true_of_ne h2]
            cases b with
            | zero =>
              simp only [List.take_zero, List.count_nil, List.length_cons]
              omega
            | succ b =>
              simp only [List.take_succ_cons, List.count_cons,
                List.length_cons]
              have hblt : b < (c2 :: rest2).length := by
                simp only [List.length_cons] at hb ⊢; omega
              have hlen2 : (c2 :: rest2).length ≤ N := by
                simp only [List.length_cons] at hlen ⊢; omega
              have hrec := ih (c2 :: rest2) hlen2 [] b hblt
              have hr : (('\r' : Char) == '\n') = false := by decide
              simp [hr]
              omega
      · rw [slGo_false_cons, if_neg hcr]
        by_cases hbk : isLineBreak c
        · rw [if_pos hbk]
          cases b with
          | zero => simp
          | succ b =>
            simp only [List.take_succ_cons, List.count_cons, List.length_cons]
            have hblt : b < rest.length := by
              simp only [List.length_cons] at hb; omega
            have hlen2 : rest.length ≤ N := by
              simp only [List.length_cons] at hlen; omega
            have hrec := ih rest hlen2 [] b hblt
            split <;> omega
        · rw [if_neg hbk]
          cases b with
          | zero =>
            simp only [List.take_zero, List.count_nil]
            exact slGo_pos rest false (c :: acc) (by simp)
          | succ b =>
            simp only [List.take_succ_cons, List.count_cons]
            have hcn : (c == '\n') = false := by
              refine beq_false_of_ne (fun hc => ?_)
              subst hc
              simp [isLineBreak] at hbk
            have hblt : b < rest.length := by
              simp only [List.length_cons] at hb; omega
            have hlen2 : rest.length ≤ N := by
              simp only [List.length_cons] at hlen; omega
            have hrec := ih rest hlen2 (c :: acc) b hblt
            simp [hcn]
            omega

theorem splitlines_pos {cs : List Char} (h : cs ≠ []) :
    1 ≤ (splitlines cs).length := by
  cases cs with
  | nil => exact absurd rfl h
  | cons c rest =>
    show 1 ≤ (slGo false [] (c :: rest)).length
    rw [slGo_false_cons]
    by_cases h1 : c = '\r'
    · rw [if_pos h1]; simp
    · rw [if_neg h1]
      by_cases h2 : isLineBreak c
      · rw [if_pos h2]; simp
      · rw [if_neg h2]
        exact slGo_pos rest false [c] (by simp)

theorem count_newline_take_lt_splitlines {cs : List Char} {b : Nat}
    (h : b < cs.length) : (cs.take b).count '\n' < (splitlines cs).length :=
  slGo_count cs.length cs (Nat.le_refl _) [] b h

theorem addRange_cons (k : String) (w : List (Nat × Nat))
    (rest : List (String × List (Nat × Nat))) (nm : String) (r : Nat × Nat) :
    addRange ((k, w) :: rest) nm r =
      (if k = nm then (k, w ++ [r]) else (k, w)) :: addRange rest nm r := by
  simp only [addRange, List.map_cons]

theorem lookup_cons_key {β : Type} (k : String) (w : β)
    (rest : List (String × β)) : List.lookup k ((k, w) :: rest) = some w := by
  simp [List.lookup]

theorem lookup_cons_ne {β : Type} {nm k : String} (h : nm ≠ k) (w : β)
    (rest : List (String × β)) :
    List.lookup nm ((k, w) :: rest) = List.lookup nm rest := by
  simp [List.lookup, beq_false_of_ne h]

theorem lookup_addRange_self {rs : List (String × List (Nat × Nat))}
    {nm : String} {v : List (Nat × Nat)} (r : Nat × Nat)
    (h : rs.lookup nm = some v) :
    (addRange rs nm r).lookup nm = some (v ++ [r]) := by
  induction rs with
  | nil => simp [List.lookup] at h
  | cons p rest ih =>
    obtain ⟨k, w⟩ := p
    rw [addRange_cons]
    by_cases hk : k = nm
    · subst hk
      rw [if_pos rfl]
      rw [lookup_cons_key] at h
      rw [lookup_cons_key]
      cases h
      rfl
    · have hnk : nm ≠ k := fun he => hk he.symm
      rw [if_neg hk]
      rw [lookup_cons_ne hnk] at h
      rw [lookup_cons_ne hnk]
      exact ih h

theorem lookup_addRange_other {rs : List (String × List (Nat × Nat))}
    {nm nm' : String} (r : Nat × Nat) (h : nm ≠ nm') :
    (addRange rs nm' r).lookup nm = rs.lookup nm := by
  induction rs with
  | nil => simp [addRange, List.lookup]
  | cons p rest ih =>
    obtain ⟨k, w⟩ := p
    rw [addRange_cons]
    by_cases hk : k = nm'
    · rw [if_pos hk]
      have hnk : nm ≠ k := fun he => h (he.trans hk)
      rw [lookup_cons_ne hnk, lookup_cons_ne hnk]
      exact ih
    · rw [if_neg hk]
      by_cases hnk : nm = k
      · subst hnk
        rw [lookup_cons_key, lookup_cons_key]
      · rw [lookup_cons_ne hnk, lookup_cons_ne hnk]
        exact ih

theorem lookup_foldl_rangeStep (cs : List Char) :
    ∀ (ms : List (String × Nat × Nat)) (acc : List (String × List (Nat × Nat)))
      (nm : String) (v : List (Nat × Nat)), acc.lookup nm = some v →
      (ms.foldl (rangeStep cs) acc).lookup nm =
        some (v ++ ms.filterMap (fun m =>
          if m.1 = nm then processMatch cs m.2.2 else none)) := by
  intro ms
  induction ms with
  | nil => intro acc nm v h; simpa using h
  | cons m rest ih =>
    intro acc nm v h
    simp only [List.foldl_cons, List.filterMap_cons]
    rcases hpm : processMatch cs m.2.2 with _ | r
    · have hstep : rangeStep cs acc m = acc := by
        simp [rangeStep, hpm]
      rw [hstep]
      simp only [hpm, ite_self]
      exact ih acc nm v h
    · have hstep : rangeStep cs acc m = addRange acc m.1 r := by
        simp [rangeStep, hpm]
      rw [hstep]
      by_cases hm1 : m.1 = nm
      · have hcond : (if m.1 = nm then some r else (none : Option (Nat × Nat))) =
            some r := if_pos hm1
        simp only [hcond]
        subst hm1
        have h2 := lookup_addRange_self r h
        have h3 := ih (addRange acc m.1 r) m.1 (v ++ [r]) h2
        rw [h3]
        simp
      · have hcond : (if m.1 = nm then some r else (none : Option (Nat × Nat))) =
            none := if_neg hm1
        simp only [hcond]
        have h2 : (addRange acc m.1 r).lookup nm = some v := by
          rw [lookup_addRange_other r (fun he => hm1 he.symm)]
          exact h
        exact ih _ nm v h2

theorem map_fst_addRange (rs : List (String × List (Nat × Nat)))
    (nm : String) (r : Nat × Nat) :
    (addRange rs nm r).map Prod.fst = rs.map Prod.fst := by
  simp only [addRange, List.map_map]
  congr 1
  funext p
  by_cases h : p.1 = nm <;> simp [h]

theorem map_fst_foldl_rangeStep (cs : List Char) :
    ∀ (ms : List (String × Nat × Nat)) (acc : List (String × List (Nat × Nat))),
      ((ms.foldl (rangeStep cs) acc).map Prod.fst) = acc.map Prod.fst := by
  intro ms
  induction ms with
  | nil => intro acc; rfl
  | cons m rest ih =>
    intro acc
    simp only [List.foldl_cons]
    rw [ih]
    unfold rangeStep
    split
    · rfl
    · exact map_fst_addRange acc m.1 _

theorem find_method_ranges_keys (cs : List Char) :
    (find_method_ranges cs).map Prod.fst =
      ["Update", "FixedUpdate", "LateUpdate"] := by
  unfold find_method_ranges
  rw [map_fst_foldl_rangeStep]
  rfl

theorem rangesOf_eq_filterMap (cs : List Char) {nm : String}
    (h : nm ∈ methodNames) :
    rangesOf cs nm = (methodMatches cs).filterMap (fun m =>
      if m.1 = nm then processMatch cs m.2.2 else none) := by
  have hinit : initRanges.lookup nm = some [] := by
    fin_cases h <;> rfl
  unfold rangesOf find_method_ranges
  rw [lookup_foldl_rangeStep cs (methodMatches cs) initRanges nm [] hinit]
  simp

theorem lookup_of_mem_of_nodupKeys {rs : List (String × List (Nat × Nat))}
    {p : String × List (Nat × Nat)} (hmem : p ∈ rs)
    (hnd : (rs.map Prod.fst).Nodup) : rs.lookup p.1 = some p.2 := by
  induction rs with
  | nil => simp at hmem
  | cons q rest ih =>
    rcases List.mem_cons.mp hmem with hpq | hpr
    · subst hpq
      simp [List.lookup]
    · simp only [List.map_cons, List.nodup_cons] at hnd
      have hne : p.1 ≠ q.1 := by
        intro he
        exact hnd.1 (he ▸ List.mem_map_of_mem Prod.fst hpr)
      simp only [List.lookup, beq_false_of_ne hne]
      exact ih hpr hnd.2

theorem mem_group_ranges {cs : List Char}
    {g : String × List (Nat × Nat)} (hg : g ∈ find_method_ranges cs) :
    g.1 ∈ methodNames ∧ rangesOf cs g.1 = g.2 := by
  have hkeys := find_method_ranges_keys cs
  have hmemk : g.1 ∈ (find_method_ranges cs).map Prod.fst :=
    List.mem_map_of_mem Prod.fst hg
  rw [hkeys] at hmemk
  refine ⟨hmemk, ?_⟩
  have hnd : ((find_method_ranges cs).map Prod.fst).Nodup := by
    rw [hkeys]; decide
  unfold rangesOf
  rw [lookup_of_mem_of_nodupKeys hg hnd]
  rfl

theorem processMatch_spec {cs : List Char} {mEnd : Nat} {r : Nat × Nat}
    (h : processMatch cs mEnd = some r) :
    ∃ b ep, findFrom cs '\x7b' mEnd = some b ∧ braceScan cs b = some ep ∧
      r = ((cs.take b).count '\n' + 1, (cs.take ep).count '\n' + 1) := by
  unfold processMatch at h
  rcases hb : findFrom cs '\x7b' mEnd with _ | b <;> simp only [hb] at h
  · cases h
  · rcases he : braceScan cs b with _ | ep <;> simp only [he] at h
    · cases h
    · cases h
      exact ⟨b, ep, rfl, he, by rw [countSub_singleton, countSub_singleton]⟩

theorem range_mem_spec {cs : List Char} {nm : String} {s e : Nat}
    (hnm : nm ∈ methodNames) (h : (s, e) ∈ rangesOf cs nm) :
    ∃ b ep, b < cs.length ∧ ep < cs.length ∧ b ≤ ep ∧
      s = (cs.take b).count '\n' + 1 ∧ e = (cs.take ep).count '\n' + 1 := by
  rw [rangesOf_eq_filterMap cs hnm] at h
  obtain ⟨m, _, hm⟩ := List.mem_filterMap.mp h
  have hpm : processMatch cs m.2.2 = some (s, e) := by
    by_cases hc : m.1 = nm
    · rwa [if_pos hc] at hm
    · rw [if_neg hc] at hm; exact absurd hm (by simp)
  obtain ⟨b, ep, hb, hep, hr⟩ := processMatch_spec hpm
  rw [Prod.mk.injEq] at hr
  exact ⟨b, ep, (findFrom_spec hb).2.1, braceScan_lt_length hep,
    braceScan_ge hep, hr.1, hr.2⟩

theorem joinSep_decomp (sep : List Char) :
    ∀ (l : List (List Char)) (x : List Char), x ∈ l →
      ∃ u v, joinSep sep l = u ++ (x ++ v) := by
  intro l
  induction l with
  | nil => intro x hx; simp at hx
  | cons y rest ih =>
    intro x hx
    rcases List.mem_cons.mp hx with hxy | hxr
    · subst hxy
      cases rest with
      | nil => exact ⟨[], [], by simp [joinSep]⟩
      | cons z more =>
        exact ⟨[], sep ++ joinSep sep (z :: more), by simp [joinSep]⟩
    · have hne : rest ≠ [] := by intro hr; subst hr; simp at hxr
      obtain ⟨u, v, hu⟩ := ih x hxr
      cases rest with
      | nil => simp at hxr
      | cons z more =>
        exact ⟨y ++ sep ++ u, v, by simp [joinSep, hu]⟩

theorem mem_rangeFindings_facts {file : String} {lines : List (List Char)}
    {nm : String} {s e : Nat} {f : Finding}
    (hf : f ∈ rangeFindings file lines nm s e) :
    f.line = s ∧ f.file = file ∧
      ((f.rule = strLower nm ++ "-expensive-call" ∧ f.severity = "warn") ∨
       (f.rule = strLower nm ++ "-linq-allocation" ∧ f.severity = "info") ∨
       (f.rule = strLower nm ++ "-debuglog" ∧ f.severity = "info") ∨
       (f.rule = "fixedupdate-physics" ∧ f.severity = "ok" ∧
         nm = "FixedUpdate")) := by
  simp only [rangeFindings, List.mem_append] at hf
  rcases hf with ((h | h) | h) | h
  · split at h
    · rcases List.mem_singleton.mp h with rfl
      exact ⟨rfl, rfl, Or.inl ⟨rfl, rfl⟩⟩
    · simp at h
  · split at h
    · rcases List.mem_singleton.mp h with rfl
      exact ⟨rfl, rfl, Or.inr (Or.inl ⟨rfl, rfl⟩)⟩
    · simp at h
  · split at h
    · rcases List.mem_singleton.mp h with rfl
      exact ⟨rfl, rfl, Or.inr (Or.inr (Or.inl ⟨rfl, rfl⟩))⟩
    · simp at h
  · split at h
    · rename_i hc
      rcases List.mem_singleton.mp h with rfl
      refine ⟨rfl, rfl, Or.inr (Or.inr (Or.inr ⟨rfl, rfl, ?_⟩))⟩
      have := (Bool.and_eq_true _ _).mp hc
      exact of_decide_eq_true this.1
    · simp at h

theorem countP_rangeFindings_le_one (file : String) (lines : List (List Char))
    {nm : String} (hnm : nm ∈ methodNames) (s e : Nat) (rid : String) :
    (rangeFindings file lines nm s e).countP (fun f => f.rule == rid) ≤ 1 := by
  have hsub : List.Sublist
      ((rangeFindings file lines nm s e).map Finding.rule)
      ([strLower nm ++ "-expensive-call"] ++ ([strLower nm ++ "-linq-allocation"]
        ++ ([strLower nm ++ "-debuglog"] ++ ["fixedupdate-physics"]))) := by
    show List.Sublist _
      ((([strLower nm ++ "-expensive-call"] ++ [strLower nm ++ "-linq-allocation"])
        ++ [strLower nm ++ "-debuglog"]) ++ ["fixedupdate-physics"])
    simp only [rangeFindings, List.map_append]
    refine List.Sublist.append (List.Sublist.append
      (List.Sublist.append ?_ ?_) ?_) ?_ <;>
      (split <;> simp)
  have hc1 : (rangeFindings file lines nm s e).countP (fun f => f.rule == rid) =
      ((rangeFindings file lines nm s e).map Finding.rule).count rid := by
    rw [List.count, List.countP_map]
    rfl
  rw [hc1]
  have hc2 := hsub.count_le rid
  refine Nat.le_trans hc2 ?_
  have hnd : ([strLower nm ++ "-expensive-call"] ++
      ([strLower nm ++ "-linq-allocation"] ++ ([strLower nm ++ "-debuglog"]
        ++ ["fixedupdate-physics"]))).Nodup := by
    fin_cases hnm <;> decide
  exact List.nodup_iff_count_le_one.mp hnd rid

theorem mem_bodyScopeFindings {file : String} {cs : List Char} {f : Finding}
    (hf : f ∈ bodyScopeFindings file cs) :
    ∃ nm s e, nm ∈ methodNames ∧ (s, e) ∈ rangesOf cs nm ∧
      f ∈ rangeFindings file (splitlines cs) nm s e := by
  obtain ⟨g, hg, hf2⟩ := List.mem_flatMap.mp hf
  obtain ⟨r, hr, hf3⟩ := List.mem_flatMap.mp hf2
  obtain ⟨hnm, hrg⟩ := mem_group_ranges hg
  exact ⟨g.1, r.1, r.2, hnm, by rw [hrg]; exact hr, hf3⟩

theorem mem_fileScopeFindings {file : String} {cs : List Char} {f : Finding}
    (hf : f ∈ fileScopeFindings file cs) :
    (f.severity = "warn" ∧ f.rule = "using-UnityEditor-in-runtime" ∧
      ∃ p q, reSearch usingRE cs = some (p, q) ∧
        f.line = countSub (cs.take p) escNl + 1) ∨
    (f.severity = "warn" ∧ f.rule = "empty-catch-block" ∧
      ∃ m ∈ finditer emptyCatchRE cs,
        f.line = countSub (cs.take m.1) escNl + 1) ∨
    (f.severity = "warn" ∧ f.rule = "async-void" ∧
      ∃ m ∈ finditer asyncVoidRE cs,
        f.line = countSub (cs.take m.1) escNl + 1) ∨
    (f.severity = "info" ∧ f.rule = "event-unsubscribe-missing" ∧
      f.line = 1) ∨
    (f.severity = "info" ∧ f.rule = "coroutine-stop-missing" ∧
      f.line = 1) := by
  simp only [fileScopeFindings, List.mem_append] at hf
  rcases hf with (((h | h) | h) | h) | h
  · left
    unfold usingFindings at h
    rcases hu : reSearch usingRE cs with _ | m
    · rw [hu] at h; simp at h
    · rw [hu] at h
      rcases List.mem_singleton.mp h with rfl
      exact ⟨rfl, rfl, m.1, m.2, by rw [← hu], rfl⟩
  · right; left
    unfold emptyCatchFindings at h
    obtain ⟨m, hm, hfm⟩ := List.mem_map.mp h
    rcases hfm.symm with rfl
    exact ⟨rfl, rfl, m, hm, rfl⟩
  · right; right; left
    unfold asyncVoidFindings at h
    obtain ⟨m, hm, hfm⟩ := List.mem_map.mp h
    rcases hfm.symm with rfl
    exact ⟨rfl, rfl, m, hm, rfl⟩
  · right; right; right; left
    unfold eventFindings at h
    split at h
    · rcases List.mem_singleton.mp h with rfl
      exact ⟨rfl, rfl, rfl⟩
    · simp at h
  · right; right; right; right
    unfold coroutineFindings at h
    split at h
    · rcases List.mem_singleton.mp h with rfl
      exact ⟨rfl, rfl, rfl⟩
    · simp at h

theorem bodyRule_ne {nm : String} (hnm : nm ∈ methodNames) {f : Finding}
    {lines : List (List Char)} {file : String} {s e : Nat}
    (hf : f ∈ rangeFindings file lines nm s e) (rid : String)
    (hrid : rid = "using-UnityEditor-in-runtime" ∨ rid = "empty-catch-block" ∨
      rid = "async-void" ∨ rid = "event-unsubscribe-missing" ∨
      rid = "coroutine-stop-missing") : f.rule ≠ rid := by
  have hfacts := (mem_rangeFindings_facts hf).2.2
  fin_cases hnm <;>
    (rcases hfacts with ⟨h, _⟩ | ⟨h, _⟩ | ⟨h, _⟩ | ⟨h, _⟩ <;>
      (rw [h]; rcases hrid with rfl | rfl | rfl | rfl | rfl <;> decide))

theorem mem_keys_of_lookup {β : Type} {nm : String} {rs : List (String × β)}
    {v : β} (h : rs.lookup nm = some v) : nm ∈ rs.map Prod.fst := by
  induction rs with
  | nil => simp [List.lookup] at h
  | cons p rest ih =>
    obtain ⟨k, w⟩ := p
    rw [List.map_cons]
    by_cases hpk : nm = k
    · exact hpk ▸ List.mem_cons_self _ _
    · rw [lookup_cons_ne hpk] at h
      exact List.mem_cons_of_mem _ (ih h)

theorem pairwise_le_of_const {α : Type} (g : α → Nat) (k : Nat) :
    ∀ l : List α, (∀ a ∈ l, g a = k) →
      List.Pairwise (fun a b => g a ≤ g b) l := by
  intro l
  induction l with
  | nil => intro _; simp
  | cons x rest ih =>
    intro h
    refine List.Pairwise.cons ?_ (ih fun a ha => h a (List.mem_cons_of_mem _ ha))
    intro b hb
    rw [h x (List.mem_cons_self _ _), h b (List.mem_cons_of_mem _ hb)]

theorem usingFindings_idx {file : String} {cs : List Char} :
    ∀ f ∈ usingFindings file cs, fileRuleIdx f = 0 := by
  intro f hf
  unfold usingFindings at hf
  rcases hu : reSearch usingRE cs with _ | m
  · rw [hu] at hf; simp at hf
  · rw [hu] at hf
    rcases List.mem_singleton.mp hf with rfl
    rfl

theorem emptyCatchFindings_idx {file : String} {cs : List Char} :
    ∀ f ∈ emptyCatchFindings file cs, fileRuleIdx f = 1 := by
  intro f hf
  obtain ⟨m, _, hfm⟩ := List.mem_map.mp hf
  rcases hfm.symm with rfl
  rfl

theorem asyncVoidFindings_idx {file : String} {cs : List Char} :
    ∀ f ∈ asyncVoidFindings file cs, fileRuleIdx f = 2 := by
  intro f hf
  obtain ⟨m, _, hfm⟩ := List.mem_map.mp hf
  rcases hfm.symm with rfl
  rfl

theorem eventFindings_idx {file : String} {cs : List Char} :
    ∀ f ∈ eventFindings file cs, fileRuleIdx f = 3 := by
  intro f hf
  unfold eventFindings at hf
  split at hf
  · rcases List.mem_singleton.mp hf with rfl
    rfl
  · simp at hf

theorem coroutineFindings_idx {file : String} {cs : List Char} :
    ∀ f ∈ coroutineFindings file cs, fileRuleIdx f = 4 := by
  intro f hf
  unfold coroutineFindings at hf
  split at hf
  · rcases List.mem_singleton.mp hf with rfl
    rfl
  · simp at hf

theorem fileScopeFindings_sorted (file : String) (cs : List Char) :
    List.Pairwise (fun a b => fileRuleIdx a ≤ fileRuleIdx b)
      (fileScopeFindings file cs) := by
  unfold fileScopeFindings
  refine List.pairwise_append.mpr ⟨?_, ?_, ?_⟩
  · refine List.pairwise_append.mpr ⟨?_, ?_, ?_⟩
    · refine List.pairwise_append.mpr ⟨?_, ?_, ?_⟩
      · refine List.pairwise_append.mpr ⟨?_, ?_, ?_⟩
        · exact pairwise_le_of_const _ 0 _ usingFindings_idx
        · exact pairwise_le_of_const _ 1 _ emptyCatchFindings_idx
        · intro a ha b hb
          rw [usingFindings_idx a ha, emptyCatchFindings_idx b hb]
          omega
      · exact pairwise_le_of_const _ 2 _ asyncVoidFindings_idx
      · intro a ha b hb
        rw [asyncVoidFindings_idx b hb]
        rcases List.mem_append.mp ha with h | h
        · rw [usingFindings_idx a h]; omega
        · rw [emptyCatchFindings_idx a h]; omega
    · exact pairwise_le_of_const _ 3 _ eventFindings_idx
    · intro a ha b hb
      rw [eventFindings_idx b hb]
      rcases List.mem_append.mp ha with h | h
      · rcases List.mem_append.mp h with h2 | h2
        · rw [usingFindings_idx a h2]; omega
        · rw [emptyCatchFindings_idx a h2]; omega
      · rw [asyncVoidFindings_idx a h]; omega
  · exact pairwise_le_of_const _ 4 _ coroutineFindings_idx
  · intro a ha b hb
    rw [coroutineFindings_idx b hb]
    have : fileRuleIdx a ≤ 4 := by
      unfold fileRuleIdx
      split
      · omega
      · split
        · omega
        · split
          · omega
          · split <;> omega
    exact this

theorem rangeFindings_sorted (file : String) (lines : List (List Char))
    {nm : String} (hnm : nm ∈ methodNames) (s e : Nat) :
    List.Pairwise (fun a b => bodyRuleIdx a ≤ bodyRuleIdx b)
      (rangeFindings file lines nm s e) := by
  have hsub : List.Sublist (rangeFindings file lines nm s e)
      (((([⟨file, s, "warn", strLower nm ++ "-expensive-call",
            "Potentially expensive call inside " ++ nm ++ "()."⟩] ++
          [⟨file, s, "info", strLower nm ++ "-linq-allocation",
            "LINQ usage inside " ++ nm ++ "() can allocate per-frame."⟩]) ++
          [⟨file, s, "info", strLower nm ++ "-debuglog",
            "Debug logging inside " ++ nm ++ "() can be noisy."⟩]) ++
          [(⟨file, s, "ok", "fixedupdate-physics",
            "Physics calls in FixedUpdate (generally correct)."⟩ : Finding)])) := by
    simp only [rangeFindings]
    refine List.Sublist.append (List.Sublist.append
      (List.Sublist.append ?_ ?_) ?_) ?_ <;> (split <;> simp)
  refine List.Pairwise.sublist hsub ?_
  fin_cases hnm <;>
    simp [List.pairwise_cons, bodyRuleIdx, strLower]

theorem usingFindings_rule {file : String} {cs : List Char} :
    ∀ f ∈ usingFindings file cs,
      f.rule = "using-UnityEditor-in-runtime" ∧ f.severity = "warn" := by
  intro f hf
  unfold usingFindings at hf
  rcases hu : reSearch usingRE cs with _ | m
  · rw [hu] at hf; simp at hf
  · rw [hu] at hf
    rcases List.mem_singleton.mp hf with rfl
    exact ⟨rfl, rfl⟩

theorem emptyCatchFindings_rule {file : String} {cs : List Char} :
    ∀ f ∈ emptyCatchFindings file cs,
      f.rule = "empty-catch-block" ∧ f.severity = "warn" := by
  intro f hf
  obtain ⟨m, _, hfm⟩ := List.mem_map.mp hf
  rcases hfm.symm with rfl
  exact ⟨rfl, rfl⟩

theorem asyncVoidFindings_rule {file : String} {cs : List Char} :
    ∀ f ∈ asyncVoidFindings file cs,
      f.rule = "async-void" ∧ f.severity = "warn" := by
  intro f hf
  obtain ⟨m, _, hfm⟩ := List.mem_map.mp hf
  rcases hfm.symm with rfl
  exact ⟨rfl, rfl⟩

theorem eventFindings_facts {file : String} {cs : List Char} :
    ∀ f ∈ eventFindings file cs,
      f.rule = "event-unsubscribe-missing" ∧ f.severity = "info" ∧
        f.line = 1 := by
  intro f hf
  unfold eventFindings at hf
  split at hf
  · rcases List.mem_singleton.mp hf with rfl
    exact ⟨rfl, rfl, rfl⟩
  · simp at hf

theorem coroutineFindings_facts {file : String} {cs : List Char} :
    ∀ f ∈ coroutineFindings file cs,
      f.rule = "coroutine-stop-missing" ∧ f.severity = "info" ∧
        f.line = 1 := by
  intro f hf
  unfold coroutineFindings at hf
  split at hf
  · rcases List.mem_singleton.mp hf with rfl
    exact ⟨rfl, rfl, rfl⟩
  · simp at hf

theorem countP_bodyScope_eq_zero (file : String) (cs : List Char)
    (rid : String)
    (hrid : rid = "using-UnityEditor-in-runtime" ∨ rid = "empty-catch-block" ∨
      rid = "async-void" ∨ rid = "event-unsubscribe-missing" ∨
      rid = "coroutine-stop-missing") :
    (bodyScopeFindings file cs).countP (fun f => f.rule == rid) = 0 := by
  refine List.countP_eq_zero.mpr ?_
  intro f hf
  obtain ⟨nm, s, e, hnm, _, hfr⟩ := mem_bodyScopeFindings hf
  have := bodyRule_ne hnm hfr rid hrid
  simpa using this

/-! ## The claims -/

/-- Claim C1: for every declaration match of Update/FixedUpdate/LateUpdate
whose signature is followed by an opening brace and whose brace walk closes,
`find_method_ranges` records exactly one range per such declaration (the
group for name `nm` equals the filterMap of the per-declaration processing
over the declaration matches), the recorded range is
`(line of the opening brace, line of the first depth-zero closing brace)`
with 1-based lines obtained by counting newlines, and every recorded range
satisfies `start_line ≤ end_line`. -/
theorem claim_C1_locator_ranges (cs : List Char) (nm : String)
    (hnm : nm ∈ methodNames) :
    rangesOf cs nm = (methodMatches cs).filterMap (fun m =>
      if m.1 = nm then processMatch cs m.2.2 else none) ∧
    (∀ m ∈ methodMatches cs, ∀ b ep, findFrom cs '\x7b' m.2.2 = some b →
      braceScan cs b = some ep →
      processMatch cs m.2.2 =
        some ((cs.take b).count '\n' + 1, (cs.take ep).count '\n' + 1)) ∧
    (∀ r ∈ rangesOf cs nm, r.1 ≤ r.2) := by
  refine ⟨rangesOf_eq_filterMap cs hnm, ?_, ?_⟩
  · intro m _ b ep hb hep
    simp only [processMatch, hb, hep, countSub_singleton]
  · intro r hr
    obtain ⟨s, e⟩ := r
    obtain ⟨b, ep, _, _, hble, hs, he⟩ := range_mem_spec hnm hr
    show s ≤ e
    rw [hs, he]
    exact Nat.succ_le_succ (count_take_mono hble '\n')

/-- Witness for C1 at the single-line text `void Update() { }`. -/
theorem claim_C1_witness :
    rangesOf "void Update() \x7b \x7d".data "Update" = [(1, 1)] ∧
    ∀ r ∈ rangesOf "void Update() \x7b \x7d".data "Update", r.1 ≤ r.2 := by
  have h := claim_C1_locator_ranges "void Update() \x7b \x7d".data "Update"
    (by decide)
  refine ⟨?_, h.2.2⟩
  rw [h.1]
  decide

/-- Claim C2: a declaration match with no `{` after its end, or whose brace
walk never returns to depth zero, contributes no range: its processing is
`none`; when every declaration fails this way the mapping stays empty for
every method name, and the empty text yields the initial empty mapping. -/
theorem claim_C2_skip_unclosed :
    (∀ (cs : List Char), ∀ m ∈ methodMatches cs,
      (findFrom cs '\x7b' m.2.2 = none ∨
        ∃ b, findFrom cs '\x7b' m.2.2 = some b ∧ braceScan cs b = none) →
      processMatch cs m.2.2 = none) ∧
    (∀ (cs : List Char) (nm : String),
      (∀ m ∈ methodMatches cs, processMatch cs m.2.2 = none) →
      rangesOf cs nm = []) ∧
    find_method_ranges [] = initRanges := by
  refine ⟨?_, ?_, by decide⟩
  · intro cs m _ hcase
    unfold processMatch
    rcases hcase with hb | ⟨b, hb, he⟩
    · simp only [hb]
    · simp only [hb, he]
  · intro cs nm hall
    by_cases hnm : nm ∈ methodNames
    · rw [rangesOf_eq_filterMap cs hnm]
      apply List.filterMap_eq_nil_iff.mpr
      intro m hm
      rw [hall m hm]
      exact ite_self none
    · unfold rangesOf
      rcases hl : (find_method_ranges cs).lookup nm with _ | v
      · rfl
      · have hmem := mem_keys_of_lookup hl
        rw [find_method_ranges_keys cs] at hmem
        exact absurd hmem hnm

/-- Witness for C2: a declaration with no opening brace, and one whose
brace never closes, each yield no range. -/
theorem claim_C2_witness :
    processMatch "void Update()".data 12 = none ∧
    processMatch "void Update() \x7b".data 12 = none ∧
    rangesOf "void Update() \x7b".data "Update" = [] := by
  have h := claim_C2_skip_unclosed
  refine ⟨?_, ?_, ?_⟩
  · exact h.1 "void Update()".data ("Update", 0, 12) (by decide)
      (Or.inl (by decide))
  · exact h.1 "void Update() \x7b".data ("Update", 0, 12) (by decide)
      (Or.inr ⟨14, by decide, by decide⟩)
  · exact h.2.1 "void Update() \x7b".data "Update" (by decide)

/-- Claim C8: a text with no declaration match of the fixed method-name set
yields an empty mapping: no name maps to any range. -/
theorem claim_C8_no_decl_empty (cs : List Char)
    (h : methodMatches cs = []) : ∀ nm, rangesOf cs nm = [] := by
  intro nm
  unfold rangesOf find_method_ranges
  rw [h]
  simp only [List.foldl_nil]
  unfold initRanges
  by_cases h1 : nm = "Update"
  · subst h1; rfl
  · rw [lookup_cons_ne h1]
    by_cases h2 : nm = "FixedUpdate"
    · subst h2; rfl
    · rw [lookup_cons_ne h2]
      by_cases h3 : nm = "LateUpdate"
      · subst h3; rfl
      · rw [lookup_cons_ne h3]
        rfl

/-- Witness for C8 at the text `hello`. -/
theorem claim_C8_witness : rangesOf "hello".data "Update" = [] :=
  claim_C8_no_decl_empty "hello".data (by decide) "Update"

/-- Claim C3: for each extracted range, each body-scope rule produces at
most one finding (per-match, not per-occurrence), and every finding of the
block carries the range's start line. -/
theorem claim_C3_once_per_range (file : String) (cs : List Char)
    (nm : String) (s e : Nat) (h : (s, e) ∈ rangesOf cs nm) :
    (∀ rid : String,
      (rangeFindings file (splitlines cs) nm s e).countP
        (fun f => f.rule == rid) ≤ 1) ∧
    (∀ f ∈ rangeFindings file (splitlines cs) nm s e, f.line = s) := by
  have hnm : nm ∈ methodNames := by
    rcases hl : (find_method_ranges cs).lookup nm with _ | v
    · unfold rangesOf at h
      rw [hl] at h
      simp at h
    · have hmem := mem_keys_of_lookup hl
      rw [find_method_ranges_keys cs] at hmem
      exact hmem
  exact ⟨countP_rangeFindings_le_one file (splitlines cs) hnm s e,
    fun f hf => (mem_rangeFindings_facts hf).1⟩

/-- Witness for C3: a body with two expensive calls still produces at most
one expensive-call finding, and its finding carries the start line. -/
theorem claim_C3_witness :
    (rangeFindings "f"
        (splitlines "void Update() \x7b GetComponent(); GetComponent(); \x7d".data)
        "Update" 1 1).countP (fun f => f.rule == "update-expensive-call") ≤ 1 ∧
    (⟨"f", 1, "warn", "update-expensive-call",
      "Potentially expensive call inside Update()."⟩ : Finding).line = 1 := by
  have h := claim_C3_once_per_range "f"
    "void Update() \x7b GetComponent(); GetComponent(); \x7d".data
    "Update" 1 1 (by decide)
  exact ⟨h.1 "update-expensive-call",
    h.2 ⟨"f", 1, "warn", "update-expensive-call",
      "Potentially expensive call inside Update()."⟩ (by decide)⟩

/-- Claim C4: the finding sequence of a file is the file-scope findings
first, ordered by the fixed file-rule table (editor import, empty catch,
async void, event-unsubscribe-missing, coroutine-stop-missing), followed by
the body-scope findings grouped per method name in the fixed group order
(Update, FixedUpdate, LateUpdate), each per-range block ordered by the
body-rule table; and the whole sequence is a deterministic function of the
text. -/
theorem claim_C4_order_determinism (file : String) (cs : List Char)
    (nm : String) (hnm : nm ∈ methodNames) (s e : Nat) :
    scanFile file cs = fileScopeFindings file cs ++ bodyScopeFindings file cs ∧
    List.Pairwise (fun a b => fileRuleIdx a ≤ fileRuleIdx b)
      (fileScopeFindings file cs) ∧
    (find_method_ranges cs).map Prod.fst =
      ["Update", "FixedUpdate", "LateUpdate"] ∧
    bodyScopeFindings file cs = (find_method_ranges cs).flatMap (fun g =>
      g.2.flatMap (fun r => rangeFindings file (splitlines cs) g.1 r.1 r.2)) ∧
    List.Pairwise (fun a b => bodyRuleIdx a ≤ bodyRuleIdx b)
      (rangeFindings file (splitlines cs) nm s e) ∧
    (∀ cs2 : List Char, cs2 = cs → scanFile file cs2 = scanFile file cs) := by
  refine ⟨rfl, fileScopeFindings_sorted file cs, find_method_ranges_keys cs,
    rfl, rangeFindings_sorted file (splitlines cs) hnm s e, ?_⟩
  intro cs2 h
  rw [h]

/-- Witness for C4 at a file with one Update body. -/
theorem claim_C4_witness :
    scanFile "f" "void Update() \x7b GetComponent(); \x7d".data =
      fileScopeFindings "f" "void Update() \x7b GetComponent(); \x7d".data ++
      bodyScopeFindings "f" "void Update() \x7b GetComponent(); \x7d".data ∧
    List.Pairwise (fun a b => fileRuleIdx a ≤ fileRuleIdx b)
      (fileScopeFindings "f" "void Update() \x7b GetComponent(); \x7d".data) := by
  have h := claim_C4_order_determinism "f"
    "void Update() \x7b GetComponent(); \x7d".data "Update" (by decide) 1 1
  exact ⟨h.1, h.2.1⟩

/-- Counterexample to C5 as stated: the text `\n\ncatch (x) {}` (with two
literal backslash-n pairs) has one line, yet its empty-catch finding — not
an absence-rule finding — reports line 3. -/
theorem claim_C5_counterexample :
    (⟨"f", 3, "warn", "empty-catch-block",
      "Empty catch block swallows exceptions."⟩ : Finding) ∈
      scanFile "f" "\\n\\ncatch (x) \x7b\x7d".data ∧
    (splitlines "\\n\\ncatch (x) \x7b\x7d".data).length = 1 := by
  constructor
  · decide
  · decide

/-- Claim C5 (amended): for a nonempty file whose text contains no literal
backslash-n pair, every finding's line lies in `[1, number_of_lines]`, and
the two absence findings use the sentinel line 1. -/
theorem claim_C5_line_bounds (file : String) (cs : List Char)
    (hne : cs ≠ []) (hesc : countSub cs escNl = 0) :
    ∀ f ∈ scanFile file cs,
      (f.rule = "event-unsubscribe-missing" ∨
        f.rule = "coroutine-stop-missing" → f.line = 1) ∧
      1 ≤ f.line ∧ f.line ≤ (splitlines cs).length := by
  intro f hf
  have hpos := splitlines_pos hne
  rcases List.mem_append.mp hf with hfs | hbd
  · rcases mem_fileScopeFindings hfs with
      ⟨_, hrule, p, q, _, hline⟩ | ⟨_, hrule, m, _, hline⟩ |
      ⟨_, hrule, m, _, hline⟩ | ⟨_, hrule, hline⟩ | ⟨_, hrule, hline⟩
    · rw [hline, countSub_take_eq_zero hesc]
      exact ⟨fun hr => rfl, Nat.le_refl 1, hpos⟩
    · rw [hline, countSub_take_eq_zero hesc]
      exact ⟨fun hr => rfl, Nat.le_refl 1, hpos⟩
    · rw [hline, countSub_take_eq_zero hesc]
      exact ⟨fun hr => rfl, Nat.le_refl 1, hpos⟩
    · rw [hline]
      exact ⟨fun _ => rfl, Nat.le_refl 1, hpos⟩
    · rw [hline]
      exact ⟨fun _ => rfl, Nat.le_refl 1, hpos⟩
  · obtain ⟨nm, s, e, hnm, hmem, hfr⟩ := mem_bodyScopeFindings hbd
    have hline : f.line = s := (mem_rangeFindings_facts hfr).1
    obtain ⟨b, ep, hblt, _, _, hs, _⟩ := range_mem_spec hnm hmem
    refine ⟨fun hr => ?_, ?_, ?_⟩
    · rcases hr with hr | hr
      · exact absurd hr (bodyRule_ne hnm hfr _ (Or.inr (Or.inr (Or.inr (Or.inl rfl)))))
      · exact absurd hr (bodyRule_ne hnm hfr _ (Or.inr (Or.inr (Or.inr (Or.inr rfl)))))
    · rw [hline, hs]
      exact Nat.succ_le_succ (Nat.zero_le _)
    · rw [hline, hs]
      exact count_newline_take_lt_splitlines hblt

/-- Witness for C5 (amended) at a one-line file with one finding. -/
theorem claim_C5_witness :
    1 ≤ (⟨"f", 1, "warn", "update-expensive-call",
      "Potentially expensive call inside Update()."⟩ : Finding).line ∧
    (⟨"f", 1, "warn", "update-expensive-call",
      "Potentially expensive call inside Update()."⟩ : Finding).line ≤
      (splitlines "void Update() \x7b GetComponent(); \x7d".data).length := by
  have h := claim_C5_line_bounds "f"
    "void Update() \x7b GetComponent(); \x7d".data (by decide) (by decide)
  exact (h _ (by decide)).2

/-- Claim C6: the three findings whose line numbers are computed by counting
the escaped two-character sequence backslash-n (editor-namespace import,
empty catch, async void) report line 1 whenever no literal backslash-n pair
precedes the match — regardless of the true line of the pattern. -/
theorem claim_C6_escaped_count_line_one (file : String) (cs : List Char) :
    (∀ p q, reSearch usingRE cs = some (p, q) →
      countSub (cs.take p) escNl = 0 →
      (⟨file, 1, "warn", "using-UnityEditor-in-runtime",
        "File imports UnityEditor; wrap editor-only code or move to Editor/."⟩
        : Finding) ∈ scanFile file cs) ∧
    (∀ m ∈ finditer emptyCatchRE cs, countSub (cs.take m.1) escNl = 0 →
      (⟨file, 1, "warn", "empty-catch-block",
        "Empty catch block swallows exceptions."⟩ : Finding) ∈
        scanFile file cs) ∧
    (∀ m ∈ finditer asyncVoidRE cs, countSub (cs.take m.1) escNl = 0 →
      (⟨file, 1, "warn", "async-void",
        "Avoid async void (except event handlers); prefer async Task."⟩
        : Finding) ∈ scanFile file cs) := by
  refine ⟨?_, ?_, ?_⟩
  · intro p q hs hz
    have h1 : (⟨file, 1, "warn", "using-UnityEditor-in-runtime",
        "File imports UnityEditor; wrap editor-only code or move to Editor/."⟩
        : Finding) ∈ usingFindings file cs := by
      unfold usingFindings
      simp only [hs, hz]
      exact List.mem_singleton.mpr rfl
    simp only [scanFile, fileScopeFindings, List.mem_append]
    exact Or.inl (Or.inl (Or.inl (Or.inl (Or.inl h1))))
  · intro m hm hz
    have h1 : (⟨file, countSub (cs.take m.1) escNl + 1, "warn",
        "empty-catch-block", "Empty catch block swallows exceptions."⟩
        : Finding) ∈ emptyCatchFindings file cs :=
      List.mem_map_of_mem _ hm
    rw [hz] at h1
    simp only [scanFile, fileScopeFindings, List.mem_append]
    exact Or.inl (Or.inl (Or.inl (Or.inl (Or.inr h1))))
  · intro m hm hz
    have h1 : (⟨file, countSub (cs.take m.1) escNl + 1, "warn",
        "async-void", "Avoid async void (except event handlers); prefer async Task."⟩
        : Finding) ∈ asyncVoidFindings file cs :=
      List.mem_map_of_mem _ hm
    rw [hz] at h1
    simp only [scanFile, fileScopeFindings, List.mem_append]
    exact Or.inl (Or.inl (Or.inl (Or.inr h1)))

/-- Witness for C6: patterns on lines 2, 3 and 4 all report line 1. -/
theorem claim_C6_witness :
    (⟨"f", 1, "warn", "using-UnityEditor-in-runtime",
      "File imports UnityEditor; wrap editor-only code or move to Editor/."⟩
      : Finding) ∈ scanFile "f"
        "x\nusing UnityEditor;\ncatch (e) \x7b\x7d\nasync void F() \x7b \x7d".data ∧
    (⟨"f", 1, "warn", "empty-catch-block",
      "Empty catch block swallows exceptions."⟩ : Finding) ∈ scanFile "f"
        "x\nusing UnityEditor;\ncatch (e) \x7b\x7d\nasync void F() \x7b \x7d".data ∧
    (⟨"f", 1, "warn", "async-void",
      "Avoid async void (except event handlers); prefer async Task."⟩
      : Finding) ∈ scanFile "f"
        "x\nusing UnityEditor;\ncatch (e) \x7b\x7d\nasync void F() \x7b \x7d".data := by
  have h := claim_C6_escaped_count_line_one "f"
    "x\nusing UnityEditor;\ncatch (e) \x7b\x7d\nasync void F() \x7b \x7d".data
  exact ⟨h.1 2 20 (by decide) (by decide),
    h.2.1 (21, 33) (by decide) (by decide),
    h.2.2 (34, 47) (by decide) (by decide)⟩

/-- Claim C7: a file containing `+=` and not `-=` yields exactly one
`event-unsubscribe-missing` finding, with severity `info` at line 1; a file
with both (or with neither) yields none. -/
theorem claim_C7_event_unsubscribe (file : String) (cs : List Char) :
    (scanFile file cs).countP
        (fun f => f.rule == "event-unsubscribe-missing") =
      (if hasSub cs "+=" && !(hasSub cs "-=") then 1 else 0) ∧
    (∀ f ∈ scanFile file cs, f.rule = "event-unsubscribe-missing" →
      f.severity = "info" ∧ f.line = 1) := by
  constructor
  · have hsub : hasSub cs "+=" = (reSearch subscribeRE cs).isSome := rfl
    have hunsub : hasSub cs "-=" = (reSearch unsubscribeRE cs).isSome := rfl
    rw [hsub, hunsub]
    simp only [scanFile, fileScopeFindings, List.countP_append]
    have hU : (usingFindings file cs).countP
        (fun f => f.rule == "event-unsubscribe-missing") = 0 := by
      refine List.countP_eq_zero.mpr (fun f hf => ?_)
      simp [(usingFindings_rule f hf).1]
    have hEC : (emptyCatchFindings file cs).countP
        (fun f => f.rule == "event-unsubscribe-missing") = 0 := by
      refine List.countP_eq_zero.mpr (fun f hf => ?_)
      simp [(emptyCatchFindings_rule f hf).1]
    have hAV : (asyncVoidFindings file cs).countP
        (fun f => f.rule == "event-unsubscribe-missing") = 0 := by
      refine List.countP_eq_zero.mpr (fun f hf => ?_)
      simp [(asyncVoidFindings_rule f hf).1]
    have hCO : (coroutineFindings file cs).countP
        (fun f => f.rule == "event-unsubscribe-missing") = 0 := by
      refine List.countP_eq_zero.mpr (fun f hf => ?_)
      simp [(coroutineFindings_facts f hf).1]
    have hB := countP_bodyScope_eq_zero file cs "event-unsubscribe-missing"
      (Or.inr (Or.inr (Or.inr (Or.inl rfl))))
    have hEV : (eventFindings file cs).countP
        (fun f => f.rule == "event-unsubscribe-missing") =
        (if (reSearch subscribeRE cs).isSome &&
            !(reSearch unsubscribeRE cs).isSome then 1 else 0) := by
      unfold eventFindings
      split
      · simp
      · simp_all
    rw [hU, hEC, hAV, hCO, hB, hEV]
    omega
  · intro f hf hr
    rcases List.mem_append.mp hf with hfs | hbd
    · simp only [fileScopeFindings, List.mem_append] at hfs
      rcases hfs with (((h | h) | h) | h) | h
      · exact absurd ((usingFindings_rule f h).1.symm.trans hr) (by decide)
      · exact absurd ((emptyCatchFindings_rule f h).1.symm.trans hr) (by decide)
      · exact absurd ((asyncVoidFindings_rule f h).1.symm.trans hr) (by decide)
      · exact ⟨(eventFindings_facts f h).2.1, (eventFindings_facts f h).2.2⟩
      · exact absurd ((coroutineFindings_facts f h).1.symm.trans hr) (by decide)
    · obtain ⟨nm, s, e, hnm, _, hfr⟩ := mem_bodyScopeFindings hbd
      exact absurd hr (bodyRule_ne hnm hfr _
        (Or.inr (Or.inr (Or.inr (Or.inl rfl)))))

/-- Witness for C7: `a += b` yields one finding; adding `-=` yields none. -/
theorem claim_C7_witness :
    (scanFile "f" "a += b".data).countP
      (fun f => f.rule == "event-unsubscribe-missing") = 1 ∧
    (scanFile "f" "a += b; a -= b".data).countP
      (fun f => f.rule == "event-unsubscribe-missing") = 0 := by
  have h1 := (claim_C7_event_unsubscribe "f" "a += b".data).1
  have h2 := (claim_C7_event_unsubscribe "f" "a += b; a -= b".data).1
  constructor
  · rw [h1]; decide
  · rw [h2]; decide

/-- Counterexample to C9 as stated: on the text `async void Foo() { }` the
scanner emits no finding with rule identifier `async-void-method`; the one
finding it emits for that occurrence carries the rule string `async-void`. -/
theorem claim_C9_counterexample :
    hasSub "async void Foo() \x7b \x7d".data "async void Foo() \x7b \x7d" = true ∧
    (scanFile "f" "async void Foo() \x7b \x7d".data).countP
      (fun f => f.rule == "async-void-method") = 0 ∧
    (scanFile "f" "async void Foo() \x7b \x7d".data).countP
      (fun f => f.rule == "async-void") = 1 := by
  refine ⟨by decide, by decide, by decide⟩

/-- Claim C9 (amended): evaluate emits exactly one Finding per regex match
of the async-void pattern in the text, each with rule identifier
`async-void` and severity warn. -/
theorem claim_C9_async_void (file : String) (cs : List Char) :
    (scanFile file cs).countP (fun f => f.rule == "async-void") =
      (finditer asyncVoidRE cs).length ∧
    (∀ f ∈ scanFile file cs, f.rule = "async-void" →
      f.severity = "warn") := by
  constructor
  · simp only [scanFile, fileScopeFindings, List.countP_append]
    have hU : (usingFindings file cs).countP
        (fun f => f.rule == "async-void") = 0 := by
      refine List.countP_eq_zero.mpr (fun f hf => ?_)
      simp [(usingFindings_rule f hf).1]
    have hEC : (emptyCatchFindings file cs).countP
        (fun f => f.rule == "async-void") = 0 := by
      refine List.countP_eq_zero.mpr (fun f hf => ?_)
      simp [(emptyCatchFindings_rule f hf).1]
    have hEV : (eventFindings file cs).countP
        (fun f => f.rule == "async-void") = 0 := by
      refine List.countP_eq_zero.mpr (fun f hf => ?_)
      simp [(eventFindings_facts f hf).1]
    have hCO : (coroutineFindings file cs).countP
        (fun f => f.rule == "async-void") = 0 := by
      refine List.countP_eq_zero.mpr (fun f hf => ?_)
      simp [(coroutineFindings_facts f hf).1]
    have hB := countP_bodyScope_eq_zero file cs "async-void"
      (Or.inr (Or.inr (Or.inl rfl)))
    have hAV : (asyncVoidFindings file cs).countP
        (fun f => f.rule == "async-void") =
        (finditer asyncVoidRE cs).length := by
      unfold asyncVoidFindings
      rw [List.countP_map]
      refine List.countP_eq_length.mpr (fun m _ => ?_)
      simp
    rw [hU, hEC, hEV, hCO, hB, hAV]
    omega
  · intro f hf hr
    rcases List.mem_append.mp hf with hfs | hbd
    · simp only [fileScopeFindings, List.mem_append] at hfs
      rcases hfs with (((h | h) | h) | h) | h
      · exact absurd ((usingFindings_rule f h).1.symm.trans hr) (by decide)
      · exact absurd ((emptyCatchFindings_rule f h).1.symm.trans hr) (by decide)
      · exact (asyncVoidFindings_rule f h).2
      · exact absurd ((eventFindings_facts f h).1.symm.trans hr) (by decide)
      · exact absurd ((coroutineFindings_facts f h).1.symm.trans hr) (by decide)
    · obtain ⟨nm, s, e, hnm, _, hfr⟩ := mem_bodyScopeFindings hbd
      exact absurd hr (bodyRule_ne hnm hfr _ (Or.inr (Or.inr (Or.inl rfl))))

/-- Witness for C9 (amended): the scenario text has exactly one async-void
match and exactly one async-void finding. -/
theorem claim_C9_witness :
    (scanFile "f" "async void Foo() \x7b \x7d".data).countP
      (fun f => f.rule == "async-void") =
      (finditer asyncVoidRE "async void Foo() \x7b \x7d".data).length ∧
    (finditer asyncVoidRE "async void Foo() \x7b \x7d".data).length = 1 := by
  exact ⟨(claim_C9_async_void "f" "async void Foo() \x7b \x7d".data).1,
    by decide⟩

/-- Claim C10: the body text a range is scanned against is the join (with
the literal backslash-n separator, as in the source) of the full lines
`start_line` through `end_line` inclusive, so every one of those lines
occurs whole inside it; and whenever the expensive-call pattern matches
anywhere in that body text — including on the start line before the `{` or
on the end line after the `}` — the finding is produced at the range's
start line. -/
theorem claim_C10_body_full_lines (file : String) (cs : List Char)
    (nm : String) (s e : Nat) (h : (s, e) ∈ rangesOf cs nm) :
    (bodyText (splitlines cs) s e =
      joinSep escNl (((splitlines cs).drop (s - 1)).take (e - (s - 1)))) ∧
    (∀ k L, s - 1 ≤ k → k < e → (splitlines cs).get? k = some L →
      ∃ u v, bodyText (splitlines cs) s e = u ++ (L ++ v)) ∧
    ((reSearch expensiveRE (bodyText (splitlines cs) s e)).isSome = true →
      (⟨file, s, "warn", strLower nm ++ "-expensive-call",
        "Potentially expensive call inside " ++ nm ++ "()."⟩ : Finding) ∈
        rangeFindings file (splitlines cs) nm s e) := by
  refine ⟨rfl, ?_, ?_⟩
  · intro k L hk1 hk2 hget
    have hidx : (((splitlines cs).drop (s - 1)).take (e - (s - 1))).get?
        (k - (s - 1)) = some L := by
      rw [List.get?_take (by omega), List.get?_drop]
      have heq : s - 1 + (k - (s - 1)) = k := by omega
      rw [heq]
      exact hget
    exact joinSep_decomp escNl _ L (List.get?_mem hidx)
  · intro hsearch
    simp only [rangeFindings, List.mem_append]
    refine Or.inl (Or.inl (Or.inl ?_))
    rw [if_pos hsearch]
    exact List.mem_singleton.mpr rfl

/-- Witness for C10: the pattern on the signature line before the `{`, and
on the end line after the `}`, still produce the finding. -/
theorem claim_C10_witness :
    (⟨"f", 1, "warn", "update-expensive-call",
      "Potentially expensive call inside Update()."⟩ : Finding) ∈
      rangeFindings "f"
        (splitlines "void Update(GetComponent x) \x7b\n\x7d".data)
        "Update" 1 2 ∧
    (⟨"f", 1, "warn", "update-expensive-call",
      "Potentially expensive call inside Update()."⟩ : Finding) ∈
      rangeFindings "f"
        (splitlines "void Update() \x7b\n\x7d GetComponent(x);".data)
        "Update" 1 2 := by
  have h1 := (claim_C10_body_full_lines "f"
    "void Update(GetComponent x) \x7b\n\x7d".data "Update" 1 2 (by decide)).2.2
  have h2 := (claim_C10_body_full_lines "f"
    "void Update() \x7b\n\x7d GetComponent(x);".data "Update" 1 2 (by decide)).2.2
  exact ⟨h1 (by decide), h2 (by decide)⟩

end StaticScan
